import Mathlib

/-!
Shallow embedding of src/simulation.py: a single-router simulation compared
under four admission/scheduling disciplines (tail-drop FIFO, choke-packet
admission, per-class token bucket, weighted fair queuing).

Python machine integers are modelled as Nat; Python floats appearing in the
simulation (ROUTER_SPEED, token counts, WFQ finish times) are modelled as
rationals, since every arithmetic operation performed on them in the source
(addition, min, division of small integers, comparison) is exact at these
magnitudes.  The shared pseudo-random stream consumed by the service coin
flips is modelled as an explicit function from draw index to a rational in
the unit interval; each engine threads a draw index through its state and
advances it exactly when the source calls random.random(), i.e. only when
the buffer is non-empty (Python short-circuits the conjunction).

Packets are inputs to every engine; the source constructs them with a random
size in 1..3, so here size is simply a field of the input packet.  The
mutable field finish_time written by run_wfq is modelled as an assignment
log (packet id, class, value) produced by the run.
-/

namespace Simulation

/-- Traffic classes: the closed set used throughout simulation.py. -/
inductive PClass where
  | Gold
  | Silver
  | Bronze
deriving DecidableEq, Repr

/-- Packet as constructed by the Packet class in simulation.py: id, class,
arrival time and size.  finish_time is not a field here; run_wfq reports the
values it writes to it in an assignment log. -/
structure Packet where
  id : Nat
  type : PClass
  arrival_time : Nat
  size : Nat
deriving DecidableEq, Repr

/-- The module-level tunable constants of simulation.py.  The source reads
them as globals; the embedding passes them explicitly. -/
structure Config where
  bufferSize : Nat
  chokeThreshold : Nat
  routerSpeed : ℚ
deriving DecidableEq, Repr

/-- The shipped constants: BUFFER_SIZE = 5, CHOKE_THRESHOLD = 10,
ROUTER_SPEED = 0.7. -/
def defaultConfig : Config := { bufferSize := 5, chokeThreshold := 10, routerSpeed := 7/10 }

/-- WEIGHTS table for WFQ: Gold 4.0, Silver 2.0, Bronze 1.0. -/
def WEIGHTS : PClass → ℚ
  | .Gold => 4
  | .Silver => 2
  | .Bronze => 1

/-! ## Method A: run_baseline_congested (tail-drop FIFO with flush) -/

/-- State of the run_baseline_congested loop: the bounded deque, the two
counters, and the index of the next random draw. -/
structure FifoState where
  buffer : List Packet
  served : Nat
  dropped : Nat
  rix : Nat
deriving DecidableEq, Repr

def fifoInit : FifoState := { buffer := [], served := 0, dropped := 0, rix := 0 }

/-- Service attempt of run_baseline_congested: if the buffer is non-empty a
random draw is consumed, and when it is below ROUTER_SPEED the head packet
leaves and is counted served.  An empty buffer consumes no draw (Python
short-circuits `buffer and random.random() < ROUTER_SPEED`). -/
def serviceStep (cfg : Config) (r : ℕ → ℚ) (s : FifoState) : FifoState :=
  match s.buffer with
  | [] => s
  | _ :: rest =>
      if r s.rix < cfg.routerSpeed then
        { s with buffer := rest, served := s.served + 1, rix := s.rix + 1 }
      else
        { s with rix := s.rix + 1 }

/-- One iteration of the run_baseline_congested loop: service attempt, then
class-blind tail-drop admission. -/
def fifoStep (cfg : Config) (r : ℕ → ℚ) (s : FifoState) (p : Packet) : FifoState :=
  let s1 := serviceStep cfg r s
  if s1.buffer.length < cfg.bufferSize then
    { s1 with buffer := s1.buffer ++ [p] }
  else
    { s1 with dropped := s1.dropped + 1 }

/-- run_baseline_congested: fold the loop over the traffic, then flush the
buffer, serving every remaining packet, and return (served, dropped). -/
def run_baseline_congested (cfg : Config) (r : ℕ → ℚ) (packets : List Packet) : Nat × Nat :=
  let s := packets.foldl (fifoStep cfg r) fifoInit
  (s.served + s.buffer.length, s.dropped)

/-! ## Method B: run_choke_packet (hysteresis choke admission, no flush) -/

/-- State of the run_choke_packet loop: buffer, counters, the hysteresis
flag choke_active, and the random draw index. -/
structure ChokeState where
  buffer : List Packet
  served : Nat
  dropped : Nat
  choke_active : Bool
  rix : Nat
deriving DecidableEq, Repr

def chokeInit : ChokeState :=
  { buffer := [], served := 0, dropped := 0, choke_active := false, rix := 0 }

/-- Service attempt of run_choke_packet, identical to the baseline one. -/
def chokeService (cfg : Config) (r : ℕ → ℚ) (s : ChokeState) : ChokeState :=
  match s.buffer with
  | [] => s
  | _ :: rest =>
      if r s.rix < cfg.routerSpeed then
        { s with buffer := rest, served := s.served + 1, rix := s.rix + 1 }
      else
        { s with rix := s.rix + 1 }

/-- Hysteresis update of run_choke_packet: the flag turns on above
CHOKE_THRESHOLD, turns off below CHOKE_THRESHOLD / 2 (Python float
division), and is otherwise left unchanged. -/
def chokeFlag (cfg : Config) (s : ChokeState) : Bool :=
  if s.buffer.length > cfg.chokeThreshold then true
  else if (s.buffer.length : ℚ) < (cfg.chokeThreshold : ℚ) / 2 then false
  else s.choke_active

/-- Admission control of run_choke_packet: with the choke on, Gold is
admitted when there is room and dropped only when full, while Silver and
Bronze are dropped outright; with the choke off, class-blind tail drop. -/
def chokeAdmit (cfg : Config) (s : ChokeState) (p : Packet) : ChokeState :=
  if s.choke_active then
    if p.type = PClass.Gold then
      if s.buffer.length < cfg.bufferSize then
        { s with buffer := s.buffer ++ [p] }
      else
        { s with dropped := s.dropped + 1 }
    else
      { s with dropped := s.dropped + 1 }
  else
    if s.buffer.length < cfg.bufferSize then
      { s with buffer := s.buffer ++ [p] }
    else
      { s with dropped := s.dropped + 1 }

/-- One iteration of the run_choke_packet loop: service, hysteresis update
on the post-service buffer length, then admission under the updated flag. -/
def chokeStep (cfg : Config) (r : ℕ → ℚ) (s : ChokeState) (p : Packet) : ChokeState :=
  let s1 := chokeService cfg r s
  let s2 := { s1 with choke_active := chokeFlag cfg s1 }
  chokeAdmit cfg s2 p

/-- run_choke_packet: fold the loop over the traffic and return
(served, dropped).  The source performs no end-of-run flush here. -/
def run_choke_packet (cfg : Config) (r : ℕ → ℚ) (packets : List Packet) : Nat × Nat :=
  let s := packets.foldl (chokeStep cfg r) chokeInit
  (s.served, s.dropped)

/-! ## Method C: run_token_bucket (per-class token buckets, no flush) -/

/-- Bucket capacities hardcoded in run_token_bucket: Gold 10, Silver 5,
Bronze 2. -/
def bucket_capacity : PClass → ℚ
  | .Gold => 10
  | .Silver => 5
  | .Bronze => 2

/-- Bucket refill rates hardcoded in run_token_bucket: Gold 2, Silver 1,
Bronze 0.5. -/
def bucket_rate : PClass → ℚ
  | .Gold => 2
  | .Silver => 1
  | .Bronze => 1/2

/-- State of the run_token_bucket loop.  The admitted field is an observer
counting, per class, the buffer.append events of the loop; it influences
nothing. -/
structure TbState where
  tokens : PClass → ℚ
  buffer : List Packet
  served : Nat
  dropped : Nat
  admitted : PClass → Nat
  rix : Nat

def tbInit : TbState :=
  { tokens := bucket_capacity, buffer := [], served := 0, dropped := 0,
    admitted := fun _ => 0, rix := 0 }

/-- Pointwise table update, modelling assignment to one key of a Python
dict keyed by class. -/
def updateTable {α : Type} (f : PClass → α) (c : PClass) (v : α) : PClass → α :=
  fun x => if x = c then v else f x

/-- Refill of run_token_bucket: every class gains its refill rate, capped at
its capacity, once per packet processed. -/
def tbRefill (t : PClass → ℚ) : PClass → ℚ :=
  fun c => min (bucket_capacity c) (t c + bucket_rate c)

/-- Service attempt of run_token_bucket, identical to the baseline one. -/
def tbService (cfg : Config) (r : ℕ → ℚ) (s : TbState) : TbState :=
  match s.buffer with
  | [] => s
  | _ :: rest =>
      if r s.rix < cfg.routerSpeed then
        { s with buffer := rest, served := s.served + 1, rix := s.rix + 1 }
      else
        { s with rix := s.rix + 1 }

/-- One iteration of the run_token_bucket loop: refill all buckets, service
attempt, then admission costing one token, requiring both a token and room. -/
def tbStep (cfg : Config) (r : ℕ → ℚ) (s : TbState) (p : Packet) : TbState :=
  let s1 := { s with tokens := tbRefill s.tokens }
  let s2 := tbService cfg r s1
  if 1 ≤ s2.tokens p.type then
    if s2.buffer.length < cfg.bufferSize then
      { s2 with tokens := updateTable s2.tokens p.type (s2.tokens p.type - 1),
                buffer := s2.buffer ++ [p],
                admitted := updateTable s2.admitted p.type (s2.admitted p.type + 1) }
    else
      { s2 with dropped := s2.dropped + 1 }
  else
    { s2 with dropped := s2.dropped + 1 }

/-- run_token_bucket: fold the loop over the traffic and return
(served, dropped).  The source performs no end-of-run flush here. -/
def run_token_bucket (cfg : Config) (r : ℕ → ℚ) (packets : List Packet) : Nat × Nat :=
  let s := packets.foldl (tbStep cfg r) tbInit
  (s.served, s.dropped)

/-! ## Method D: run_wfq (weighted fair queuing, no flush) -/

/-- Virtual finish time formula of run_wfq:
max(arrival_time, last_finish_time of the class) + size / weight. -/
def virtualFinish (lf : PClass → ℚ) (p : Packet) : ℚ :=
  max (p.arrival_time : ℚ) (lf p.type) + (p.size : ℚ) / WEIGHTS p.type

/-- Heap insertion for the priority queue of run_wfq.  heapq stores
(finish_time, packet) tuples ordered lexicographically, packets comparing by
id; the queue is modelled as a list kept sorted by that order, so the head
is always the entry heappop would return. -/
def wfqPush (e : ℚ × Packet) : List (ℚ × Packet) → List (ℚ × Packet)
  | [] => [e]
  | x :: xs =>
      if e.1 < x.1 ∨ (e.1 = x.1 ∧ e.2.id < x.2.id) then e :: x :: xs
      else x :: wfqPush e xs

/-- State of the run_wfq loop: the sorted priority queue, counters, the
per-class last_finish_time table, the log of finish_time writes
(packet id, class, value) in execution order, and the draw index. -/
structure WfqState where
  pq : List (ℚ × Packet)
  served : Nat
  dropped : Nat
  last_finish_time : PClass → ℚ
  assignments : List (Nat × PClass × ℚ)
  rix : Nat

def wfqInit : WfqState :=
  { pq := [], served := 0, dropped := 0, last_finish_time := fun _ => 0,
    assignments := [], rix := 0 }

/-- Service attempt of run_wfq: pop the entry with the smallest
(finish_time, id) key with probability ROUTER_SPEED. -/
def wfqService (cfg : Config) (r : ℕ → ℚ) (s : WfqState) : WfqState :=
  match s.pq with
  | [] => s
  | _ :: rest =>
      if r s.rix < cfg.routerSpeed then
        { s with pq := rest, served := s.served + 1, rix := s.rix + 1 }
      else
        { s with rix := s.rix + 1 }

/-- One iteration of the run_wfq loop: service attempt, then the finish-time
computation and write (performed for every packet, before admission is
decided), then admission bounded by BUFFER_SIZE. -/
def wfqStep (cfg : Config) (r : ℕ → ℚ) (s : WfqState) (p : Packet) : WfqState :=
  let s1 := wfqService cfg r s
  let vf := virtualFinish s1.last_finish_time p
  let s2 := { s1 with last_finish_time := updateTable s1.last_finish_time p.type vf,
                      assignments := s1.assignments ++ [(p.id, p.type, vf)] }
  if s2.pq.length < cfg.bufferSize then
    { s2 with pq := wfqPush (vf, p) s2.pq }
  else
    { s2 with dropped := s2.dropped + 1 }

/-- Full final state of the run_wfq loop. -/
def run_wfq_state (cfg : Config) (r : ℕ → ℚ) (packets : List Packet) : WfqState :=
  packets.foldl (wfqStep cfg r) wfqInit

/-- run_wfq: fold the loop over the traffic and return (served, dropped).
The source performs no end-of-run flush here. -/
def run_wfq (cfg : Config) (r : ℕ → ℚ) (packets : List Packet) : Nat × Nat :=
  let s := run_wfq_state cfg r packets
  (s.served, s.dropped)

/-! ## Helper lemmas -/

/-- Gold and Silver are distinct classes (rewrite form for evaluation). -/
theorem goldNeSilver : (PClass.Gold = PClass.Silver) = False := by simp

/-- Gold and Bronze are distinct classes (rewrite form for evaluation). -/
theorem goldNeBronze : (PClass.Gold = PClass.Bronze) = False := by simp

/-- Silver and Gold are distinct classes (rewrite form for evaluation). -/
theorem silverNeGold : (PClass.Silver = PClass.Gold) = False := by simp

/-- Silver and Bronze are distinct classes (rewrite form for evaluation). -/
theorem silverNeBronze : (PClass.Silver = PClass.Bronze) = False := by simp

/-- Bronze and Gold are distinct classes (rewrite form for evaluation). -/
theorem bronzeNeGold : (PClass.Bronze = PClass.Gold) = False := by simp

/-- Bronze and Silver are distinct classes (rewrite form for evaluation). -/
theorem bronzeNeSilver : (PClass.Bronze = PClass.Silver) = False := by simp

/-! ## Theorems -/

/-- C1.  The conservation claim fails on the code: run_choke_packet (like
run_token_bucket and run_wfq) performs no end-of-run flush, so packets left
in the buffer are counted neither served nor dropped.  On a single Gold
packet (total offered = 1) the run returns served = 0 and dropped = 0, and
served + dropped differs from the number of packets offered, for instance
under the constant-zero draw stream.  The spec (and the flush comment in
run_baseline_congested) make full accounting the clear intent, so this is a
code bug. -/
theorem conservation_violation_choke :
    (run_choke_packet defaultConfig (fun _ => 0) [⟨0, .Gold, 0, 1⟩]).1 +
      (run_choke_packet defaultConfig (fun _ => 0) [⟨0, .Gold, 0, 1⟩]).2 ≠
      [(⟨0, .Gold, 0, 1⟩ : Packet)].length := by
  norm_num [run_choke_packet, chokeStep, chokeService, chokeFlag, chokeAdmit, chokeInit,
    defaultConfig]

/-- C9.  The code performs no configuration validation: with the invalid
configuration BUFFER_SIZE = 0 (violating BUFFER_SIZE ≥ 1) the engine runs
to completion and silently reports every packet dropped, instead of the
fatal configuration error before any run that the spec requires. -/
theorem engine_runs_under_invalid_config :
    run_baseline_congested { bufferSize := 0, chokeThreshold := 10, routerSpeed := 7/10 }
      (fun _ => 0) [⟨0, .Gold, 0, 1⟩] = (0, 1) := by
  norm_num [run_baseline_congested, fifoStep, serviceStep, fifoInit]

/-- C6 counterexample.  The engines do not return a per-class mapping: a run
whose only (served) packet is Gold and a run whose only packet is Bronze
return the very same value (1, 0), so the served and dropped counts in the
output are not attributable to individual classes. -/
theorem stats_not_per_class_counterexample :
    run_baseline_congested defaultConfig (fun _ => 0) [⟨0, .Gold, 0, 1⟩] =
      run_baseline_congested defaultConfig (fun _ => 0) [⟨0, .Bronze, 0, 1⟩] ∧
    run_baseline_congested defaultConfig (fun _ => 0) [⟨0, .Gold, 0, 1⟩] = (1, 0) := by
  refine ⟨?_, ?_⟩ <;>
    norm_num [run_baseline_congested, fifoStep, serviceStep, fifoInit, defaultConfig]

/-- C5 counterexample.  Two packets with equal arrival time 0 and equal
prior last_finish_time 0 for their classes: the Gold packet (weight 4) has
size 3 and receives finish time 3/4, the Silver packet (weight 2) has size
1 and receives finish time 1/2.  The higher-weight class receives the
strictly larger finish time, refuting the claim, which ignores packet
sizes. -/
theorem wfq_fairness_counterexample :
    WEIGHTS .Silver < WEIGHTS .Gold ∧
    (run_wfq_state defaultConfig (fun _ => 1)
        [⟨0, .Gold, 0, 3⟩, ⟨1, .Silver, 0, 1⟩]).assignments =
      [(0, .Gold, 3/4), (1, .Silver, 1/2)] ∧
    ¬ ((3/4 : ℚ) < 1/2) := by
  refine ⟨by norm_num [WEIGHTS], ?_, by norm_num⟩
  norm_num [run_wfq_state, wfqStep, wfqService, wfqPush, wfqInit, virtualFinish, WEIGHTS,
    defaultConfig, updateTable, goldNeSilver, goldNeBronze, silverNeGold, silverNeBronze,
    bronzeNeGold, bronzeNeSilver]

/-- C7 counterexample.  With BUFFER_SIZE = 5 and a draw stream that never
serves, the sixth all-Bronze packet (id 5) is dropped by run_wfq, yet its
finish_time is written (to 6, not left at the default 0), because the
source assigns p.finish_time before the admission check. -/
theorem finish_time_set_on_drop_counterexample :
    (run_wfq_state defaultConfig (fun _ => 1)
        ((List.range 6).map fun i => ⟨i, .Bronze, i, 1⟩)).dropped = 1 ∧
    ((5, PClass.Bronze, (6 : ℚ)) ∈
      (run_wfq_state defaultConfig (fun _ => 1)
        ((List.range 6).map fun i => ⟨i, .Bronze, i, 1⟩)).assignments) ∧
    (∀ e ∈ (run_wfq_state defaultConfig (fun _ => 1)
        ((List.range 6).map fun i => ⟨i, .Bronze, i, 1⟩)).pq, e.2.id ≠ 5) ∧
    (6 : ℚ) ≠ 0 := by
  refine ⟨?_, ?_, ?_, by norm_num⟩ <;>
    norm_num [run_wfq_state, wfqStep, wfqService, wfqPush, wfqInit, virtualFinish, WEIGHTS,
      defaultConfig, updateTable, List.range_succ, goldNeSilver, goldNeBronze, silverNeGold,
      silverNeBronze, bronzeNeGold, bronzeNeSilver]

/-- C2.  Admission of run_choke_packet while the choke is active: at the
moment admission is decided (after the service attempt and the hysteresis
update of this iteration) with choke_active true, a Gold packet is admitted
exactly when the buffer has room and dropped only when it is physically
full, while a Silver or Bronze packet is dropped unconditionally, with the
buffer left untouched, regardless of remaining space. -/
theorem choke_admission_under_active_choke (cfg : Config) (r : ℕ → ℚ)
    (s : ChokeState) (p : Packet)
    (h : chokeFlag cfg (chokeService cfg r s) = true) :
    (p.type = PClass.Gold →
      (chokeService cfg r s).buffer.length < cfg.bufferSize →
        (chokeStep cfg r s p).buffer = (chokeService cfg r s).buffer ++ [p] ∧
        (chokeStep cfg r s p).dropped = (chokeService cfg r s).dropped) ∧
    (p.type = PClass.Gold →
      ¬ (chokeService cfg r s).buffer.length < cfg.bufferSize →
        (chokeStep cfg r s p).dropped = (chokeService cfg r s).dropped + 1 ∧
        (chokeStep cfg r s p).buffer = (chokeService cfg r s).buffer) ∧
    (p.type ≠ PClass.Gold →
        (chokeStep cfg r s p).dropped = (chokeService cfg r s).dropped + 1 ∧
        (chokeStep cfg r s p).buffer = (chokeService cfg r s).buffer) := by
  refine ⟨?_, ?_, ?_⟩
  · intro hg hlen
    simp [chokeStep, chokeAdmit, h, hg, hlen]
  · intro hg hlen
    simp [chokeStep, chokeAdmit, h, hg, hlen]
  · intro hg
    simp [chokeStep, chokeAdmit, h, hg]

/-- A congested state used to witness the active-choke admission theorem:
eleven buffered packets, one more than CHOKE_THRESHOLD. -/
def chokeWitnessState : ChokeState :=
  { buffer := List.replicate 11 ⟨0, .Silver, 0, 1⟩, served := 0, dropped := 0,
    choke_active := false, rix := 0 }

/-- Witness for the active-choke admission theorem: with eleven buffered
packets and a draw stream that never serves, the hysteresis flag is on and
an arriving Silver packet is dropped with the buffer untouched. -/
theorem choke_admission_under_active_choke_witness :
    chokeFlag defaultConfig (chokeService defaultConfig (fun _ => 1) chokeWitnessState) = true ∧
    ((chokeStep defaultConfig (fun _ => 1) chokeWitnessState ⟨99, .Silver, 99, 1⟩).dropped =
       (chokeService defaultConfig (fun _ => 1) chokeWitnessState).dropped + 1 ∧
     (chokeStep defaultConfig (fun _ => 1) chokeWitnessState ⟨99, .Silver, 99, 1⟩).buffer =
       (chokeService defaultConfig (fun _ => 1) chokeWitnessState).buffer) := by
  have h : chokeFlag defaultConfig (chokeService defaultConfig (fun _ => 1) chokeWitnessState)
      = true := by
    norm_num [chokeFlag, chokeService, chokeWitnessState, defaultConfig, List.replicate_succ]
  exact ⟨h, (choke_admission_under_active_choke defaultConfig (fun _ => 1) chokeWitnessState
    ⟨99, .Silver, 99, 1⟩ h).2.2 (by simp)⟩

/-- Projection of a choke state onto a baseline FIFO state, forgetting the
hysteresis flag. -/
def forgetChoke (s : ChokeState) : FifoState :=
  { buffer := s.buffer, served := s.served, dropped := s.dropped, rix := s.rix }

/-- The choke service attempt is the baseline service attempt once the flag
is forgotten. -/
theorem forgetChoke_service (cfg : Config) (r : ℕ → ℚ) (s : ChokeState) :
    forgetChoke (chokeService cfg r s) = serviceStep cfg r (forgetChoke s) := by
  cases hb : s.buffer with
  | nil => simp [chokeService, serviceStep, forgetChoke, hb]
  | cons q rest =>
      by_cases hr : r s.rix < cfg.routerSpeed <;>
        simp [chokeService, serviceStep, forgetChoke, hb, hr]

/-- The choke service attempt leaves the hysteresis flag alone. -/
theorem chokeService_flag (cfg : Config) (r : ℕ → ℚ) (s : ChokeState) :
    (chokeService cfg r s).choke_active = s.choke_active := by
  cases hb : s.buffer with
  | nil => simp [chokeService, hb]
  | cons q rest =>
      by_cases hr : r s.rix < cfg.routerSpeed <;> simp [chokeService, hb, hr]

/-- The choke service attempt never lengthens the buffer. -/
theorem chokeService_len (cfg : Config) (r : ℕ → ℚ) (s : ChokeState) :
    (chokeService cfg r s).buffer.length ≤ s.buffer.length := by
  cases hb : s.buffer with
  | nil => simp [chokeService, hb]
  | cons q rest =>
      by_cases hr : r s.rix < cfg.routerSpeed <;> simp [chokeService, hb, hr]

/-- Under the shipped constants, one choke iteration from a calm state keeps
the flag off, keeps the buffer within BUFFER_SIZE, and acts exactly as the
baseline tail-drop iteration. -/
theorem chokeStep_inert (r : ℕ → ℚ) (s : ChokeState) (p : Packet)
    (hflag : s.choke_active = false)
    (hlen : s.buffer.length ≤ defaultConfig.bufferSize) :
    (chokeStep defaultConfig r s p).choke_active = false ∧
    (chokeStep defaultConfig r s p).buffer.length ≤ defaultConfig.bufferSize ∧
    forgetChoke (chokeStep defaultConfig r s p) = fifoStep defaultConfig r (forgetChoke s) p := by
  have hlen1 : (chokeService defaultConfig r s).buffer.length ≤ defaultConfig.bufferSize :=
    le_trans (chokeService_len defaultConfig r s) hlen
  have hflag1 : chokeFlag defaultConfig (chokeService defaultConfig r s) = false := by
    have h10 : ¬ (chokeService defaultConfig r s).buffer.length > defaultConfig.chokeThreshold := by
      simp only [defaultConfig] at hlen1 ⊢
      omega
    by_cases h5 : ((chokeService defaultConfig r s).buffer.length : ℚ) <
        (defaultConfig.chokeThreshold : ℚ) / 2
    · simp [chokeFlag, h10, h5]
    · simp [chokeFlag, h10, h5, chokeService_flag, hflag]
  refine ⟨?_, ?_, ?_⟩
  · by_cases hroom : (chokeService defaultConfig r s).buffer.length < defaultConfig.bufferSize <;>
      simp [chokeStep, chokeAdmit, hflag1, hroom]
  · by_cases hroom : (chokeService defaultConfig r s).buffer.length < defaultConfig.bufferSize
    · simp only [chokeStep, chokeAdmit, hflag1, Bool.false_eq_true, if_false, hroom, if_true]
      simp only [List.length_append, List.length_singleton]
      omega
    · simp [chokeStep, chokeAdmit, hflag1, hroom, hlen1]
  · have hsvc := forgetChoke_service defaultConfig r s
    simp only [chokeStep, fifoStep]
    rw [← hsvc]
    by_cases hroom : (chokeService defaultConfig r s).buffer.length < defaultConfig.bufferSize <;>
      simp [chokeAdmit, hflag1, hroom, forgetChoke]

/-- Folding choke iterations under the shipped constants from a calm state
keeps the flag off, keeps the buffer bounded, and mirrors the baseline
fold. -/
theorem choke_fold_inert (r : ℕ → ℚ) (ps : List Packet) :
    ∀ s : ChokeState, s.choke_active = false →
      s.buffer.length ≤ defaultConfig.bufferSize →
      (ps.foldl (chokeStep defaultConfig r) s).choke_active = false ∧
      (ps.foldl (chokeStep defaultConfig r) s).buffer.length ≤ defaultConfig.bufferSize ∧
      forgetChoke (ps.foldl (chokeStep defaultConfig r) s) =
        ps.foldl (fifoStep defaultConfig r) (forgetChoke s) := by
  induction ps with
  | nil => intro s h1 h2; exact ⟨h1, h2, rfl⟩
  | cons p ps ih =>
      intro s h1 h2
      obtain ⟨g1, g2, g3⟩ := chokeStep_inert r s p h1 h2
      obtain ⟨k1, k2, k3⟩ := ih (chokeStep defaultConfig r s p) g1 g2
      refine ⟨k1, k2, ?_⟩
      simpa [g3] using k3

/-- C10.  Under the shipped defaults BUFFER_SIZE = 5 and
CHOKE_THRESHOLD = 10, after any prefix of any run of run_choke_packet the
buffer never exceeds BUFFER_SIZE, the buffer length therefore never exceeds
CHOKE_THRESHOLD, choke_active stays false, and the whole run behaves as the
class-blind tail-drop loop of the baseline engine (without its final
flush), for every input sequence and every draw stream. -/
theorem choke_inert_under_defaults (r : ℕ → ℚ) (pre : List Packet) :
    (pre.foldl (chokeStep defaultConfig r) chokeInit).buffer.length ≤
      defaultConfig.bufferSize ∧
    ¬ ((pre.foldl (chokeStep defaultConfig r) chokeInit).buffer.length >
      defaultConfig.chokeThreshold) ∧
    (pre.foldl (chokeStep defaultConfig r) chokeInit).choke_active = false ∧
    forgetChoke (pre.foldl (chokeStep defaultConfig r) chokeInit) =
      pre.foldl (fifoStep defaultConfig r) fifoInit ∧
    run_choke_packet defaultConfig r pre =
      ((pre.foldl (fifoStep defaultConfig r) fifoInit).served,
       (pre.foldl (fifoStep defaultConfig r) fifoInit).dropped) := by
  obtain ⟨h1, h2, h3⟩ := choke_fold_inert r pre chokeInit rfl (by simp [chokeInit])
  have hforget : forgetChoke chokeInit = fifoInit := rfl
  rw [hforget] at h3
  refine ⟨h2, ?_, h1, h3, ?_⟩
  · simp only [defaultConfig] at h2 ⊢
    omega
  · have hs : (pre.foldl (chokeStep defaultConfig r) chokeInit).served =
        (pre.foldl (fifoStep defaultConfig r) fifoInit).served :=
      congrArg FifoState.served h3
    have hd : (pre.foldl (chokeStep defaultConfig r) chokeInit).dropped =
        (pre.foldl (fifoStep defaultConfig r) fifoInit).dropped :=
      congrArg FifoState.dropped h3
    simp [run_choke_packet, hs, hd]

/-- The end-to-end scenario constants: BUFFER_SIZE = 2, ROUTER_SPEED = 1.0
(the choke threshold is irrelevant to the baseline engine). -/
def endToEndConfig : Config := { bufferSize := 2, chokeThreshold := 10, routerSpeed := 1 }

/-- The scenario traffic: n packets all forced to class Bronze, with
arrival order equal to id. -/
def bronzeTraffic (n : Nat) : List Packet :=
  (List.range n).map fun i => ⟨i, .Bronze, i, 1⟩

/-- With ROUTER_SPEED = 1 and every draw below 1, the baseline loop keeps
the buffer at no more than one packet, drops nothing, and conserves
served + buffered. -/
theorem fifo_speed1_drains (r : ℕ → ℚ) (h : ∀ i, r i < 1) (ps : List Packet) :
    ∀ s : FifoState, s.buffer.length ≤ 1 →
      (ps.foldl (fifoStep endToEndConfig r) s).served +
        (ps.foldl (fifoStep endToEndConfig r) s).buffer.length =
        s.served + s.buffer.length + ps.length ∧
      (ps.foldl (fifoStep endToEndConfig r) s).dropped = s.dropped ∧
      (ps.foldl (fifoStep endToEndConfig r) s).buffer.length ≤ 1 := by
  induction ps with
  | nil => intro s hs; exact ⟨rfl, rfl, hs⟩
  | cons p ps ih =>
      intro s hs
      rw [List.foldl_cons]
      cases hb : s.buffer with
      | nil =>
          have hstep : fifoStep endToEndConfig r s p =
              { buffer := [p], served := s.served, dropped := s.dropped, rix := s.rix } := by
            simp [fifoStep, serviceStep, hb, endToEndConfig]
          obtain ⟨k1, k2, k3⟩ := ih (fifoStep endToEndConfig r s p) (by simp [hstep])
          rw [hstep] at k1 k2 k3 ⊢
          refine ⟨?_, k2, k3⟩
          simp only [hb] at k1 ⊢
          simp at k1 ⊢
          omega
      | cons q rest =>
          have hrest : rest.length = 0 := by
            rw [hb] at hs
            simp only [List.length_cons] at hs
            omega
          have hr := h s.rix
          have hstep : fifoStep endToEndConfig r s p =
              { buffer := rest ++ [p], served := s.served + 1, dropped := s.dropped,
                rix := s.rix + 1 } := by
            simp [fifoStep, serviceStep, hb, endToEndConfig, hr, hrest]
          obtain ⟨k1, k2, k3⟩ := ih (fifoStep endToEndConfig r s p) (by simp [hstep, hrest])
          rw [hstep] at k1 k2 k3 ⊢
          refine ⟨?_, k2, k3⟩
          simp only [hb] at k1 ⊢
          simp [hrest] at k1 ⊢
          omega

/-- C8.  The end-to-end scenario: 20 packets all of class Bronze,
BUFFER_SIZE = 2 and ROUTER_SPEED = 1.0, under any draw stream (every draw
of random.random() lies below 1, so the service attempt always dequeues
when the buffer is non-empty): run_baseline_congested serves all 20 packets
and drops none. -/
theorem fifo_end_to_end_scenario (r : ℕ → ℚ) (h : ∀ i, r i < 1) :
    run_baseline_congested endToEndConfig r (bronzeTraffic 20) = (20, 0) := by
  obtain ⟨k1, k2, k3⟩ := fifo_speed1_drains r h (bronzeTraffic 20) fifoInit (by simp [fifoInit])
  have hlen : (bronzeTraffic 20).length = 20 := by simp [bronzeTraffic]
  rw [run_baseline_congested]
  simp only [fifoInit] at k1 k2
  rw [hlen] at k1
  simp at k1
  exact Prod.ext (by simpa using k1) (by simpa using k2)

/-- Witness for the end-to-end scenario theorem at the constant-zero draw
stream. -/
theorem fifo_end_to_end_scenario_witness :
    (∀ i : ℕ, (fun _ : ℕ => (0 : ℚ)) i < 1) ∧
    run_baseline_congested endToEndConfig (fun _ => 0) (bronzeTraffic 20) = (20, 0) :=
  ⟨fun _ => by norm_num, fifo_end_to_end_scenario (fun _ => 0) (fun _ => by norm_num)⟩

/-- Every bucket capacity of run_token_bucket is nonnegative. -/
theorem bucket_capacity_nonneg (c : PClass) : 0 ≤ bucket_capacity c := by
  cases c <;> norm_num [bucket_capacity]

/-- Every bucket refill rate of run_token_bucket is nonnegative. -/
theorem bucket_rate_nonneg (c : PClass) : 0 ≤ bucket_rate c := by
  cases c <;> norm_num [bucket_rate]

/-- The token-bucket service attempt touches neither the buckets nor the
admission counters. -/
theorem tbService_frame (cfg : Config) (r : ℕ → ℚ) (s : TbState) :
    (tbService cfg r s).tokens = s.tokens ∧ (tbService cfg r s).admitted = s.admitted := by
  cases hb : s.buffer with
  | nil => simp [tbService, hb]
  | cons q rest => by_cases hr : r s.rix < cfg.routerSpeed <;> simp [tbService, hb, hr]

/-- After any token-bucket iteration every bucket holds at most its
capacity, because the refill is capped and admission only deducts. -/
theorem tbStep_tokens_le (cfg : Config) (r : ℕ → ℚ) (s : TbState) (p : Packet) (c : PClass) :
    (tbStep cfg r s p).tokens c ≤ bucket_capacity c := by
  have hmin : tbRefill s.tokens c ≤ bucket_capacity c := min_le_left _ _
  have hminp : tbRefill s.tokens p.type ≤ bucket_capacity p.type := min_le_left _ _
  have hfr : (tbService cfg r { s with tokens := tbRefill s.tokens }).tokens
      = tbRefill s.tokens := (tbService_frame cfg r _).1
  simp only [tbStep, hfr]
  split_ifs with h1 h2
  · by_cases hc : c = p.type
    · subst hc
      simp only [updateTable, if_pos]
      linarith
    · simp only [updateTable, if_neg hc]
      exact hmin
  · exact hmin
  · exact hmin

/-- After any token-bucket iteration every bucket that held a nonnegative
amount still does: admission requires a whole token before deducting one. -/
theorem tbStep_tokens_nonneg (cfg : Config) (r : ℕ → ℚ) (s : TbState) (p : Packet) (c : PClass)
    (h : 0 ≤ s.tokens c) : 0 ≤ (tbStep cfg r s p).tokens c := by
  have hre : 0 ≤ tbRefill s.tokens c :=
    le_min (bucket_capacity_nonneg c) (by linarith [bucket_rate_nonneg c])
  have hfr : (tbService cfg r { s with tokens := tbRefill s.tokens }).tokens
      = tbRefill s.tokens := (tbService_frame cfg r _).1
  simp only [tbStep, hfr]
  split_ifs with h1 h2
  · by_cases hc : c = p.type
    · subst hc
      simp only [updateTable, if_pos]
      linarith
    · simp only [updateTable, if_neg hc]
      exact hre
  · exact hre
  · exact hre

/-- Token accounting across one iteration: the class admission counter plus
the class bucket grows by at most the class refill rate, since admission
deducts exactly the token it accounts for. -/
theorem tbStep_budget (cfg : Config) (r : ℕ → ℚ) (s : TbState) (p : Packet) (c : PClass) :
    ((tbStep cfg r s p).admitted c : ℚ) + (tbStep cfg r s p).tokens c ≤
      (s.admitted c : ℚ) + s.tokens c + bucket_rate c := by
  have hre : tbRefill s.tokens c ≤ s.tokens c + bucket_rate c := min_le_right _ _
  have hfr : (tbService cfg r { s with tokens := tbRefill s.tokens }).tokens
      = tbRefill s.tokens := (tbService_frame cfg r _).1
  have hfa : (tbService cfg r { s with tokens := tbRefill s.tokens }).admitted
      = s.admitted := (tbService_frame cfg r _).2
  simp only [tbStep, hfr, hfa]
  split_ifs with h1 h2
  · by_cases hc : c = p.type
    · subst hc
      simp only [updateTable, if_pos]
      push_cast
      linarith
    · simp only [updateTable, if_neg hc]
      linarith
  · simp only [hfa]
    linarith
  · simp only [hfa]
    linarith

/-- Folding token-bucket iterations preserves the bucket bounds
0 ≤ tokens ≤ capacity for every class. -/
theorem tb_fold_inv (cfg : Config) (r : ℕ → ℚ) (ps : List Packet) :
    ∀ s : TbState, (∀ c, 0 ≤ s.tokens c ∧ s.tokens c ≤ bucket_capacity c) →
      ∀ c, 0 ≤ (ps.foldl (tbStep cfg r) s).tokens c ∧
        (ps.foldl (tbStep cfg r) s).tokens c ≤ bucket_capacity c := by
  induction ps with
  | nil => intro s h; exact h
  | cons p ps ih =>
      intro s h
      exact ih (tbStep cfg r s p) fun c =>
        ⟨tbStep_tokens_nonneg cfg r s p c (h c).1, tbStep_tokens_le cfg r s p c⟩

/-- Token accounting across a window: admissions plus final bucket exceed
the initial figures by at most the refill rate times the window length. -/
theorem tb_fold_budget (cfg : Config) (r : ℕ → ℚ) (win : List Packet) :
    ∀ (s : TbState) (c : PClass),
      ((win.foldl (tbStep cfg r) s).admitted c : ℚ) + (win.foldl (tbStep cfg r) s).tokens c ≤
        (s.admitted c : ℚ) + s.tokens c + bucket_rate c * win.length := by
  induction win with
  | nil => intro s c; simp
  | cons p w ih =>
      intro s c
      have h1 := tbStep_budget cfg r s p c
      have h2 := ih (tbStep cfg r s p) c
      rw [List.foldl_cons]
      have hlen : ((p :: w).length : ℚ) = (w.length : ℚ) + 1 := by push_cast [List.length_cons]; ring
      calc ((w.foldl (tbStep cfg r) (tbStep cfg r s p)).admitted c : ℚ) +
            (w.foldl (tbStep cfg r) (tbStep cfg r s p)).tokens c ≤
          ((tbStep cfg r s p).admitted c : ℚ) + (tbStep cfg r s p).tokens c +
            bucket_rate c * w.length := h2
        _ ≤ (s.admitted c : ℚ) + s.tokens c + bucket_rate c + bucket_rate c * w.length := by
            linarith
        _ = (s.admitted c : ℚ) + s.tokens c + bucket_rate c * (p :: w).length := by
            rw [hlen]; ring

/-- C3.  Token-bucket burst ceiling: over any window of k consecutive input
packets (any split of the input into a prefix, a window and a remainder),
the number of packets of a class admitted to the buffer during the window
is at most that class's capacity + refill_rate * k, for every
configuration, input sequence and draw stream: each admission deducts one
token, tokens never exceed capacity and never go negative, and each
processed packet refills each class once by its rate. -/
theorem token_bucket_window_ceiling (cfg : Config) (r : ℕ → ℚ)
    (pre win : List Packet) (c : PClass) :
    (((pre ++ win).foldl (tbStep cfg r) tbInit).admitted c : ℚ) ≤
      ((pre.foldl (tbStep cfg r) tbInit).admitted c : ℚ) +
        bucket_capacity c + bucket_rate c * win.length := by
  rw [List.foldl_append]
  have hinit : ∀ c, 0 ≤ tbInit.tokens c ∧ tbInit.tokens c ≤ bucket_capacity c := by
    intro c
    exact ⟨bucket_capacity_nonneg c, le_refl _⟩
  have hpre := tb_fold_inv cfg r pre tbInit hinit c
  have hwin := tb_fold_inv cfg r win (pre.foldl (tbStep cfg r) tbInit)
    (tb_fold_inv cfg r pre tbInit hinit) c
  have hb := tb_fold_budget cfg r win (pre.foldl (tbStep cfg r) tbInit) c
  linarith [hwin.1, hpre.2]

/-- Every WFQ weight is positive. -/
theorem WEIGHTS_pos (c : PClass) : 0 < WEIGHTS c := by
  cases c <;> norm_num [WEIGHTS]

/-- The virtual finish time of a packet never precedes the previous finish
time of its class: the formula takes a max with it and adds a nonnegative
increment. -/
theorem virtualFinish_ge_last (lf : PClass → ℚ) (p : Packet) :
    lf p.type ≤ virtualFinish lf p := by
  have h1 : (0 : ℚ) ≤ (p.size : ℚ) / WEIGHTS p.type :=
    div_nonneg (Nat.cast_nonneg _) (le_of_lt (WEIGHTS_pos p.type))
  have h2 : lf p.type ≤ max (p.arrival_time : ℚ) (lf p.type) := le_max_right _ _
  unfold virtualFinish
  linarith

/-- The sequence of finish-time writes run_wfq performs, as a pure
recursion over the input: each packet is logged once, in processing order,
with the virtual finish computed from the evolving last_finish_time
table. -/
def wfqFinishTrace (lf : PClass → ℚ) : List Packet → List (Nat × PClass × ℚ)
  | [] => []
  | p :: ps =>
      (p.id, p.type, virtualFinish lf p) ::
        wfqFinishTrace (updateTable lf p.type (virtualFinish lf p)) ps

/-- The WFQ service attempt touches neither the last_finish_time table nor
the assignment log. -/
theorem wfqService_frame (cfg : Config) (r : ℕ → ℚ) (s : WfqState) :
    (wfqService cfg r s).last_finish_time = s.last_finish_time ∧
    (wfqService cfg r s).assignments = s.assignments := by
  cases hb : s.pq with
  | nil => simp [wfqService, hb]
  | cons e rest => by_cases hr : r s.rix < cfg.routerSpeed <;> simp [wfqService, hb, hr]

/-- One WFQ iteration appends exactly one finish-time write, for the
processed packet, computed from the current table, whether or not the
packet is admitted; and it updates the table at the packet's class. -/
theorem wfqStep_assign (cfg : Config) (r : ℕ → ℚ) (s : WfqState) (p : Packet) :
    (wfqStep cfg r s p).assignments =
      s.assignments ++ [(p.id, p.type, virtualFinish s.last_finish_time p)] ∧
    (wfqStep cfg r s p).last_finish_time =
      updateTable s.last_finish_time p.type (virtualFinish s.last_finish_time p) := by
  have hlf := (wfqService_frame cfg r s).1
  have has := (wfqService_frame cfg r s).2
  by_cases hroom : (wfqService cfg r s).pq.length < cfg.bufferSize <;>
    simp [wfqStep, hroom, hlf, has]

/-- Folding WFQ iterations appends the pure finish trace to the assignment
log, independently of the draw stream and of admission decisions. -/
theorem wfq_fold_assignments (cfg : Config) (r : ℕ → ℚ) (ps : List Packet) :
    ∀ s : WfqState,
      (ps.foldl (wfqStep cfg r) s).assignments =
        s.assignments ++ wfqFinishTrace s.last_finish_time ps := by
  induction ps with
  | nil => intro s; simp [wfqFinishTrace]
  | cons p ps ih =>
      intro s
      rw [List.foldl_cons, ih (wfqStep cfg r s p), (wfqStep_assign cfg r s p).1,
        (wfqStep_assign cfg r s p).2]
      simp [wfqFinishTrace]

/-- The finish-time values a trace logs for one class, in order. -/
def classFinishes (c : PClass) (l : List (Nat × PClass × ℚ)) : List ℚ :=
  l.filterMap fun t => if t.2.1 = c then some t.2.2 else none

/-- Along the pure finish trace, the finishes of each class are a
non-decreasing chain bounded below by the class's current
last_finish_time. -/
theorem wfqFinishTrace_chain (c : PClass) (ps : List Packet) :
    ∀ lf : PClass → ℚ,
      List.Chain' (· ≤ ·) (classFinishes c (wfqFinishTrace lf ps)) ∧
      ∀ y ∈ classFinishes c (wfqFinishTrace lf ps), lf c ≤ y := by
  induction ps with
  | nil => intro lf; simp [wfqFinishTrace, classFinishes]
  | cons p ps ih =>
      intro lf
      by_cases hp : p.type = c
      · have hupd : updateTable lf p.type (virtualFinish lf p) c = virtualFinish lf p := by
          simp [updateTable, hp]
        have hvf : lf c ≤ virtualFinish lf p := by
          rw [← hp]; exact virtualFinish_ge_last lf p
        obtain ⟨hchain, hbound⟩ := ih (updateTable lf p.type (virtualFinish lf p))
        rw [hupd] at hbound
        have hcf : classFinishes c (wfqFinishTrace lf (p :: ps)) =
            virtualFinish lf p ::
              classFinishes c (wfqFinishTrace (updateTable lf p.type (virtualFinish lf p)) ps) := by
          simp [wfqFinishTrace, classFinishes, hp]
        rw [hcf]
        constructor
        · rw [List.chain'_cons']
          exact ⟨fun b hb => hbound b (List.mem_of_mem_head? hb), hchain⟩
        · intro y hy
          rcases List.mem_cons.mp hy with h | h
          · rw [h]; exact hvf
          · exact le_trans hvf (hbound y h)
      · have hupd : updateTable lf p.type (virtualFinish lf p) c = lf c := by
          simp only [updateTable]
          rw [if_neg fun h => hp h.symm]
        obtain ⟨hchain, hbound⟩ := ih (updateTable lf p.type (virtualFinish lf p))
        rw [hupd] at hbound
        have hcf : classFinishes c (wfqFinishTrace lf (p :: ps)) =
            classFinishes c (wfqFinishTrace (updateTable lf p.type (virtualFinish lf p)) ps) := by
          simp [wfqFinishTrace, classFinishes, hp]
        rw [hcf]
        exact ⟨hchain, hbound⟩

/-- C4.  WFQ per-class monotonicity: for every configuration, input
sequence, draw stream and class, the successive finish_time values run_wfq
assigns to packets of that class form a non-decreasing sequence: each new
virtual finish takes a max with the class's previous finish time and adds
size / weight ≥ 0. -/
theorem wfq_finish_times_monotone (cfg : Config) (r : ℕ → ℚ) (ps : List Packet) (c : PClass) :
    List.Chain' (· ≤ ·) (classFinishes c (run_wfq_state cfg r ps).assignments) := by
  have h := wfq_fold_assignments cfg r ps wfqInit
  rw [run_wfq_state, h]
  simpa [wfqInit] using (wfqFinishTrace_chain c ps fun _ => 0).1

/-- The pure finish trace logs exactly the input ids, in input order. -/
theorem wfqFinishTrace_ids (ps : List Packet) :
    ∀ lf : PClass → ℚ, (wfqFinishTrace lf ps).map (fun t => t.1) = ps.map Packet.id := by
  induction ps with
  | nil => intro lf; simp [wfqFinishTrace]
  | cons p ps ih => intro lf; simp [wfqFinishTrace, ih]

/-- C7 amended.  run_wfq writes finish_time exactly once for every packet
it processes, admitted or dropped alike: the assignment log of a run is
precisely the pure finish trace of the input (one write per input packet,
in input order, with the virtual-finish value), for every configuration
and draw stream. -/
theorem wfq_assigns_finish_to_every_packet (cfg : Config) (r : ℕ → ℚ) (ps : List Packet) :
    (run_wfq_state cfg r ps).assignments = wfqFinishTrace (fun _ => 0) ps ∧
    (run_wfq_state cfg r ps).assignments.map (fun t => t.1) = ps.map Packet.id := by
  have h := wfq_fold_assignments cfg r ps wfqInit
  rw [run_wfq_state] at *
  constructor
  · simpa [wfqInit] using h
  · rw [h]
    simpa [wfqInit] using wfqFinishTrace_ids ps fun _ => 0

/-- C5 amended.  WFQ fairness ordering with equal sizes: for two packets of
different classes with equal arrival time, equal last_finish_time for
their classes, and equal positive size, the higher-weight class receives
the strictly smaller finish time, and when the two entries are enqueued
into an empty priority queue the higher-weight packet sits at the head,
i.e. is the one the service step would pop first under contention. -/
theorem wfq_fairness_equal_size (lf : PClass → ℚ) (p q : Packet)
    (harr : p.arrival_time = q.arrival_time) (hlf : lf p.type = lf q.type)
    (hsize : p.size = q.size) (hpos : 0 < p.size)
    (hw : WEIGHTS q.type < WEIGHTS p.type) :
    virtualFinish lf p < virtualFinish lf q ∧
    (wfqPush (virtualFinish lf q, q) (wfqPush (virtualFinish lf p, p) [])).head? =
      some (virtualFinish lf p, p) := by
  have hqpos : (0 : ℚ) < (q.size : ℚ) := by
    rw [← hsize]
    exact_mod_cast hpos
  have hdiv : (q.size : ℚ) / WEIGHTS p.type < (q.size : ℚ) / WEIGHTS q.type :=
    div_lt_div_of_pos_left hqpos (WEIGHTS_pos q.type) hw
  have hlt : virtualFinish lf p < virtualFinish lf q := by
    unfold virtualFinish
    rw [harr, hlf, hsize]
    exact add_lt_add_left hdiv _
  refine ⟨hlt, ?_⟩
  rw [wfqPush, wfqPush, if_neg, List.head?]
  rintro (h | ⟨h, _⟩)
  · exact absurd h (not_lt.mpr hlt.le)
  · exact hlt.ne' h

/-- Witness for the equal-size fairness theorem: a Gold and a Silver packet
of size 2, both arriving at 0 against a fresh table; Gold receives finish
1/2, Silver receives finish 1, and Gold heads the queue. -/
theorem wfq_fairness_equal_size_witness :
    ((⟨0, .Gold, 0, 2⟩ : Packet).arrival_time = (⟨1, .Silver, 0, 2⟩ : Packet).arrival_time) ∧
    (0 < (⟨0, .Gold, 0, 2⟩ : Packet).size) ∧
    WEIGHTS (⟨1, .Silver, 0, 2⟩ : Packet).type < WEIGHTS (⟨0, .Gold, 0, 2⟩ : Packet).type ∧
    (virtualFinish (fun _ => 0) ⟨0, .Gold, 0, 2⟩ <
      virtualFinish (fun _ => 0) ⟨1, .Silver, 0, 2⟩ ∧
    (wfqPush (virtualFinish (fun _ => 0) ⟨1, .Silver, 0, 2⟩, ⟨1, .Silver, 0, 2⟩)
        (wfqPush (virtualFinish (fun _ => 0) ⟨0, .Gold, 0, 2⟩, ⟨0, .Gold, 0, 2⟩) [])).head? =
      some (virtualFinish (fun _ => 0) ⟨0, .Gold, 0, 2⟩, ⟨0, .Gold, 0, 2⟩)) :=
  ⟨rfl, by norm_num, by norm_num [WEIGHTS],
    wfq_fairness_equal_size (fun _ => 0) ⟨0, .Gold, 0, 2⟩ ⟨1, .Silver, 0, 2⟩ rfl rfl rfl
      (by norm_num) (by norm_num [WEIGHTS])⟩

/-- Reclassification of a packet, keeping id, arrival time and size. -/
def setType (c : PClass) (p : Packet) : Packet :=
  { p with type := c }

/-- The baseline fold treats two equal-length traffic lists identically on
the observable counters: service and admission read only buffer length and
the draw stream, never the packets themselves. -/
theorem fifo_fold_blind (cfg : Config) (r : ℕ → ℚ) (ps : List Packet) :
    ∀ (qs : List Packet) (s t : FifoState), ps.length = qs.length →
      s.buffer.length = t.buffer.length → s.served = t.served → s.dropped = t.dropped →
      s.rix = t.rix →
      (ps.foldl (fifoStep cfg r) s).buffer.length =
        (qs.foldl (fifoStep cfg r) t).buffer.length ∧
      (ps.foldl (fifoStep cfg r) s).served = (qs.foldl (fifoStep cfg r) t).served ∧
      (ps.foldl (fifoStep cfg r) s).dropped = (qs.foldl (fifoStep cfg r) t).dropped ∧
      (ps.foldl (fifoStep cfg r) s).rix = (qs.foldl (fifoStep cfg r) t).rix := by
  induction ps with
  | nil =>
      intro qs s t hlen h1 h2 h3 h4
      cases qs with
      | nil => exact ⟨h1, h2, h3, h4⟩
      | cons q qs => simp at hlen
  | cons p ps ih =>
      intro qs s t hlen h1 h2 h3 h4
      cases qs with
      | nil => simp at hlen
      | cons q qs =>
          have hserve :
              (serviceStep cfg r s).buffer.length = (serviceStep cfg r t).buffer.length ∧
              (serviceStep cfg r s).served = (serviceStep cfg r t).served ∧
              (serviceStep cfg r s).dropped = (serviceStep cfg r t).dropped ∧
              (serviceStep cfg r s).rix = (serviceStep cfg r t).rix := by
            cases hsb : s.buffer with
            | nil =>
                cases htb : t.buffer with
                | nil => simp [serviceStep, hsb, htb, h1, h2, h3, h4]
                | cons b bs => rw [hsb, htb] at h1; simp at h1
            | cons a as =>
                cases htb : t.buffer with
                | nil => rw [hsb, htb] at h1; simp at h1
                | cons b bs =>
                    rw [hsb, htb] at h1
                    simp only [List.length_cons] at h1
                    by_cases hr : r t.rix < cfg.routerSpeed <;>
                      simp [serviceStep, hsb, htb, hr, h1, h2, h3, h4] <;>
                      omega
          obtain ⟨g1, g2, g3, g4⟩ := hserve
          have hstep :
              (fifoStep cfg r s p).buffer.length = (fifoStep cfg r t q).buffer.length ∧
              (fifoStep cfg r s p).served = (fifoStep cfg r t q).served ∧
              (fifoStep cfg r s p).dropped = (fifoStep cfg r t q).dropped ∧
              (fifoStep cfg r s p).rix = (fifoStep cfg r t q).rix := by
            by_cases hroom : (serviceStep cfg r s).buffer.length < cfg.bufferSize
            · have hroomt : (serviceStep cfg r t).buffer.length < cfg.bufferSize := g1 ▸ hroom
              simp [fifoStep, hroom, hroomt, g1, g2, g3, g4]
            · have hroomt : ¬ (serviceStep cfg r t).buffer.length < cfg.bufferSize :=
                g1 ▸ hroom
              simp [fifoStep, hroom, hroomt, g1, g2, g3, g4]
          simp only [List.length_cons, Nat.add_right_cancel_iff] at hlen
          exact ih qs (fifoStep cfg r s p) (fifoStep cfg r t q) hlen
            hstep.1 hstep.2.1 hstep.2.2.1 hstep.2.2.2

/-- C6 amended.  The engines return an aggregate (served, dropped) pair of
integers totalled across all classes, not a per-class mapping; in
particular the baseline engine's whole output is unchanged by reclassifying
every packet, so its served and dropped counts carry no class
attribution. -/
theorem baseline_output_class_blind (cfg : Config) (r : ℕ → ℚ) (ps : List Packet)
    (c c' : PClass) :
    run_baseline_congested cfg r (ps.map (setType c)) =
      run_baseline_congested cfg r (ps.map (setType c')) := by
  obtain ⟨g1, g2, g3, g4⟩ := fifo_fold_blind cfg r (ps.map (setType c)) (ps.map (setType c'))
    fifoInit fifoInit (by simp) rfl rfl rfl rfl
  rw [run_baseline_congested, run_baseline_congested]
  rw [g1, g2, g3]

end Simulation
